import Mathlib

/-!
Verification of the derivation core of the `bp-std` wallet library
(`src/std/src/derive.rs`): terminal paths, the batch-derivation loop,
address-batch derivation, and the ordering of derived addresses.

Machine integers are modelled as `Nat` with explicit bounds; unhardened
derivation indices (`NormalIndex`) are `Nat`s constrained below the
hardened boundary `2^31`.
-/

namespace BpStd

/-- Modelled from the spec: the hardened boundary; `NormalIndex` values are
unsigned integers strictly below `2^31` (`NormalIndex` lives in `index.rs`,
outside the provided sources). -/
def HARDENED_INDEX_BOUNDARY : Nat := 2 ^ 31

/-- Modelled from the spec: `NormalIndex::checked_inc` — a checked increment
on an unhardened index that signals exhaustion (`none`) at the upper bound
`2^31 - 1` instead of wrapping. -/
def checked_inc (index : Nat) : Option Nat :=
  if index + 1 < HARDENED_INDEX_BOUNDARY then some (index + 1) else none

/-- The loop body of `Derive::derive_batch` (`derive.rs` lines 106–112):
push the item derived at the current index, increment the `u8` counter, and
stop as soon as the index has no successor or the counter has reached
`max_count`; otherwise continue at the incremented index.  `count` is the
number of items pushed before this iteration. -/
def derive_batch_go {D : Type} (f : Nat → D) (index count max_count : Nat) :
    List D :=
  match checked_inc index with
  | none => [f index]
  | some index' =>
    if count + 1 ≥ max_count then [f index]
    else f index :: derive_batch_go f index' (count + 1) max_count
termination_by max_count - count
decreasing_by omega

/-- `Derive::derive_batch` (`derive.rs` lines 96–113): derive at consecutive
indices of one keychain starting at `from_`, with the loop above started at
`count = 0`. -/
def derive_batch {D : Type} (f : Nat → Nat → D) (keychain from_ : Nat)
    (max_count : Nat) : List D :=
  derive_batch_go (f keychain) from_ 0 max_count

theorem checked_inc_eq_none {index : Nat}
    (h : ¬ index + 1 < HARDENED_INDEX_BOUNDARY) : checked_inc index = none := by
  simp [checked_inc, h]

theorem checked_inc_eq_some {index : Nat}
    (h : index + 1 < HARDENED_INDEX_BOUNDARY) :
    checked_inc index = some (index + 1) := by
  simp [checked_inc, h]

/-- Closed form of the batch loop: starting at a valid index it returns the
derivations at the `min (max (max_count - count) 1) (2^31 - index)`
consecutive indices beginning at `index`. -/
theorem derive_batch_go_spec {D : Type} (f : Nat → D)
    (index count max_count : Nat) (h : index < HARDENED_INDEX_BOUNDARY) :
    derive_batch_go f index count max_count =
      (List.range
        (min (max (max_count - count) 1) (HARDENED_INDEX_BOUNDARY - index))).map
        (fun j => f (index + j)) := by
  rw [derive_batch_go]
  by_cases h1 : index + 1 < HARDENED_INDEX_BOUNDARY
  · rw [checked_inc_eq_some h1]
    by_cases h2 : count + 1 ≥ max_count
    · have hL : min (max (max_count - count) 1)
          (HARDENED_INDEX_BOUNDARY - index) = 1 := by omega
      simp [h2, hL, List.range_succ]
    · have hrec := derive_batch_go_spec f (index + 1) (count + 1) max_count h1
      have hL : min (max (max_count - count) 1)
            (HARDENED_INDEX_BOUNDARY - index) =
          (min (max (max_count - (count + 1)) 1)
            (HARDENED_INDEX_BOUNDARY - (index + 1))) + 1 := by omega
      simp only [ge_iff_le, h2, if_false, hrec, hL, List.range_succ_eq_map,
        List.map_cons, List.map_map, Nat.add_zero]
      congr 1
      apply List.map_congr_left
      intro j _
      simp only [Function.comp_apply]
      congr 1
      omega
  · rw [checked_inc_eq_none h1]
    have hL : min (max (max_count - count) 1)
        (HARDENED_INDEX_BOUNDARY - index) = 1 := by omega
    simp [hL, List.range_succ]
termination_by max_count - count
decreasing_by omega

/-- Closed form of `derive_batch` at a valid starting index. -/
theorem derive_batch_spec {D : Type} (f : Nat → Nat → D)
    (keychain from_ max_count : Nat) (h : from_ < HARDENED_INDEX_BOUNDARY) :
    derive_batch f keychain from_ max_count =
      (List.range
        (min (max max_count 1) (HARDENED_INDEX_BOUNDARY - from_))).map
        (fun j => f keychain (from_ + j)) := by
  have := derive_batch_go_spec (f keychain) from_ 0 max_count h
  simpa [derive_batch] using this

/-- `Iterator::collect::<Result<Vec<_>, _>>()` as used on line 143 of
`derive.rs`: collect a list of fallible results into a single result,
stopping at (and returning) the first error; on an error no partial list is
produced. -/
def collectResults {E A : Type} : List (Except E A) → Except E (List A)
  | [] => .ok []
  | .error e :: _ => .error e
  | .ok a :: rest => (collectResults rest).map (fun l => a :: l)

/-- `DeriveSpk::derive_address` (`derive.rs` lines 123–131): derive the
script-pubkey at `(keychain, index)` and encode it for `network`.  The
encoder `withAddr` models `Address::with` (`address.rs`, outside the
provided sources) as an opaque fallible capability, as the spec describes
it. -/
def derive_address {Spk Net E A : Type} (withAddr : Spk → Net → Except E A)
    (f : Nat → Nat → Spk) (network : Net) (keychain index : Nat) :
    Except E A :=
  withAddr (f keychain index) network

/-- `DeriveSpk::derive_address_batch` (`derive.rs` lines 133–144): derive a
batch of script-pubkeys, encode each for `network`, and collect the fallible
results. -/
def derive_address_batch {Spk Net E A : Type}
    (withAddr : Spk → Net → Except E A) (f : Nat → Nat → Spk) (network : Net)
    (keychain from_ : Nat) (max_count : Nat) : Except E (List A) :=
  collectResults
    ((derive_batch f keychain from_ max_count).map
      (fun spk => withAddr spk network))

theorem collectResults_eq_ok_iff {E A : Type} (l : List (Except E A))
    (as : List A) : collectResults l = .ok as ↔ l = as.map Except.ok := by
  induction l generalizing as with
  | nil =>
    cases as <;> simp [collectResults]
  | cons x rest ih =>
    cases x with
    | error e =>
      cases as <;> simp [collectResults]
    | ok a =>
      cases as with
      | nil =>
        simp only [collectResults, List.map_nil]
        constructor
        · intro hmap
          cases hok : collectResults rest <;> simp [hok, Except.map] at hmap
        · intro hcontra
          exact absurd hcontra (by simp)
      | cons b bs =>
        simp only [collectResults, List.map_cons]
        constructor
        · intro hmap
          cases hok : collectResults rest with
          | error e => simp [hok, Except.map] at hmap
          | ok l =>
            simp only [hok, Except.map] at hmap
            cases hmap
            have := (ih bs).mp hok
            simp_all
        · intro heq
          obtain ⟨h1, h2⟩ := by exact List.cons_eq_cons.mp heq
          cases h1
          rw [(ih bs).mpr h2]
          rfl

/-- `collectResults` either succeeds on a list of successes, or returns
exactly the first error in the list. -/
theorem collectResults_cases {E A : Type} (l : List (Except E A)) :
    (∃ as, collectResults l = .ok as ∧ l = as.map Except.ok) ∨
    (∃ j : Nat, ∃ e, l[j]? = some (Except.error e) ∧
      (∀ i, i < j → ∃ a, l[i]? = some (Except.ok a)) ∧
      collectResults l = .error e) := by
  induction l with
  | nil => exact Or.inl ⟨[], rfl, rfl⟩
  | cons x rest ih =>
    cases x with
    | error e =>
      refine Or.inr ⟨0, e, by simp, ?_, rfl⟩
      intro i hi
      omega
    | ok a =>
      rcases ih with ⟨as, hok, hmap⟩ | ⟨j, e, hget, hpre, herr⟩
      · refine Or.inl ⟨a :: as, ?_, by simp [hmap]⟩
        simp [collectResults, hok, Except.map]
      · refine Or.inr ⟨j + 1, e, by simpa using hget, ?_, ?_⟩
        · intro i hi
          cases i with
          | zero => exact ⟨a, by simp⟩
          | succ i' =>
            obtain ⟨b, hb⟩ := hpre i' (by omega)
            exact ⟨b, by simpa using hb⟩
        · simp [collectResults, herr, Except.map]

/-- Decimal digit characters used by index formatting. -/
def digitChar : Nat → Char
  | 0 => '0'
  | 1 => '1'
  | 2 => '2'
  | 3 => '3'
  | 4 => '4'
  | 5 => '5'
  | 6 => '6'
  | 7 => '7'
  | 8 => '8'
  | _ => '9'

/-- Most-significant-first decimal digits of `n` (empty for `0`), with
enough structural fuel to exhaust the number. -/
def natToDecimalAux : Nat → Nat → List Char
  | 0, _ => []
  | fuel + 1, n =>
    if n = 0 then []
    else natToDecimalAux fuel (n / 10) ++ [digitChar (n % 10)]

/-- Modelled from the spec: the `Display` of a `NormalIndex` (`index.rs`,
outside the provided sources) — a non-negative decimal integer without
leading zeros. -/
def natToDecimalChars (n : Nat) : List Char :=
  if n = 0 then ['0'] else natToDecimalAux (n + 1) n

/-- Numeric value of a run of decimal digit characters, accumulated left to
right (the usual decimal evaluation). -/
def decimalValue (cs : List Char) : Nat :=
  cs.foldl (fun acc c => acc * 10 + (c.toNat - 48)) 0

/-- Modelled from the spec: a path-syntax error of the underlying
derivation-path parser (`path.rs`, outside the provided sources), surfaced
unchanged by terminal parsing.  The offending fragment is carried for
diagnostics. -/
inductive DerivationParseError : Type where
  | malformed (s : String)
  | invalidComponent (c : String)
  | indexOverflow (c : String)
deriving DecidableEq, Repr

/-- Split a character list into the groups separated by `/` (the groups
keep their order; a separator at the start or end yields an empty group). -/
def splitSlash : List Char → List (List Char)
  | [] => [[]]
  | c :: cs =>
    if c = '/' then [] :: splitSlash cs
    else
      match splitSlash cs with
      | [] => [[c]]
      | g :: gs => (c :: g) :: gs

/-- Modelled from the spec: parsing one unhardened path component — a
non-empty run of decimal digits whose value is below the hardened
boundary. -/
def parseComponent (c : List Char) : Except DerivationParseError Nat :=
  if c = [] ∨ ¬ (c.all Char.isDigit) then
    .error (.invalidComponent (String.mk c))
  else if decimalValue c < HARDENED_INDEX_BOUNDARY then .ok (decimalValue c)
  else .error (.indexOverflow (String.mk c))

/-- Modelled from the spec: `DerivationPath::<NormalIndex>::from_str`
(`path.rs`, outside the provided sources) — a path string is a leading `/`
followed by `/`-separated unhardened components, each a decimal integer
below the hardened boundary; the empty string denotes the empty path. -/
def parsePath (s : String) : Except DerivationParseError (List Nat) :=
  match splitSlash s.data with
  | [] :: comps => collectResults (comps.map parseComponent)
  | _ => .error (.malformed s)

/-- `Terminal` (`derive.rs` lines 34–43): the last two unhardened
components of a derivation path. -/
structure Terminal : Type where
  keychain : Nat
  index : Nat
deriving DecidableEq, Repr

/-- `TerminalParseError` (`derive.rs` lines 45–55). -/
inductive TerminalParseError : Type where
  | DerivationPath (e : DerivationParseError)
  | InvalidComponents (s : String)
deriving DecidableEq, Repr

/-- `Terminal::from_str` (`derive.rs` lines 57–68): parse the underlying
path (propagating its error wrapped in `DerivationPath`), then require
exactly two components. -/
def Terminal.from_str (s : String) : Except TerminalParseError Terminal :=
  match parsePath s with
  | .error e => .error (.DerivationPath e)
  | .ok comps =>
    match comps with
    | [keychain, index] => .ok ⟨keychain, index⟩
    | _ => .error (.InvalidComponents s)

/-- The `Display` of `Terminal` (`derive.rs` lines 34–35):
`/{keychain}/{index}`. -/
def Terminal.display (t : Terminal) : String :=
  String.mk ('/' :: natToDecimalChars t.keychain
    ++ '/' :: natToDecimalChars t.index)

theorem digitChar_spec (d : Nat) :
    (digitChar d).isDigit = true ∧ digitChar d ≠ '/' := by
  unfold digitChar
  split <;> exact ⟨by decide, by decide⟩

theorem digitChar_toNat (d : Nat) (h : d < 10) :
    (digitChar d).toNat - 48 = d := by
  interval_cases d <;> decide

theorem natToDecimalAux_foldl (fuel : Nat) :
    ∀ n a, n ≤ fuel →
      List.foldl (fun acc c => acc * 10 + (c.toNat - 48)) a
          (natToDecimalAux fuel n) =
        a * 10 ^ (natToDecimalAux fuel n).length + n := by
  induction fuel with
  | zero =>
    intro n a hn
    have : n = 0 := by omega
    subst this
    simp [natToDecimalAux]
  | succ fuel ih =>
    intro n a hn
    by_cases hz : n = 0
    · subst hz
      simp [natToDecimalAux]
    · have hdiv : n / 10 ≤ fuel := by
        have : n / 10 < n := Nat.div_lt_self (by omega) (by omega)
        omega
      have hmod : n % 10 < 10 := Nat.mod_lt _ (by omega)
      have hIH := ih (n / 10) a hdiv
      simp only [natToDecimalAux, hz, if_false, List.foldl_append,
        List.foldl_cons, List.foldl_nil, List.length_append,
        List.length_cons, List.length_nil, hIH, digitChar_toNat _ hmod]
      have hdm : n / 10 * 10 + n % 10 = n := by omega
      calc (a * 10 ^ (natToDecimalAux fuel (n / 10)).length + n / 10) * 10
            + n % 10
          = a * (10 ^ (natToDecimalAux fuel (n / 10)).length * 10)
            + (n / 10 * 10 + n % 10) := by ring
        _ = a * 10 ^ ((natToDecimalAux fuel (n / 10)).length + 0 + 1) + n := by
            rw [hdm, pow_succ]

theorem decimalValue_natToDecimalChars (n : Nat) :
    decimalValue (natToDecimalChars n) = n := by
  by_cases hz : n = 0
  · subst hz
    decide
  · have := natToDecimalAux_foldl (n + 1) n 0 (by omega)
    simp only [decimalValue, natToDecimalChars, hz, if_false, this,
      Nat.zero_mul, Nat.zero_add]

theorem natToDecimalAux_mem (fuel : Nat) :
    ∀ n c, c ∈ natToDecimalAux fuel n → ∃ d, c = digitChar d := by
  induction fuel with
  | zero => intro n c hc; simp [natToDecimalAux] at hc
  | succ fuel ih =>
    intro n c hc
    by_cases hz : n = 0
    · subst hz; simp [natToDecimalAux] at hc
    · simp only [natToDecimalAux, hz, if_false, List.mem_append,
        List.mem_singleton] at hc
      rcases hc with hc | hc
      · exact ih (n / 10) c hc
      · exact ⟨n % 10, hc⟩

theorem natToDecimalChars_mem (n : Nat) (c : Char)
    (hc : c ∈ natToDecimalChars n) : c.isDigit = true ∧ c ≠ '/' := by
  by_cases hz : n = 0
  · subst hz
    have h0 : natToDecimalChars 0 = ['0'] := rfl
    rw [h0, List.mem_singleton] at hc
    subst hc
    exact ⟨by decide, by decide⟩
  · simp only [natToDecimalChars, hz, if_false] at hc
    obtain ⟨d, hd⟩ := natToDecimalAux_mem (n + 1) n c hc
    subst hd
    exact digitChar_spec d

theorem natToDecimalChars_ne_nil (n : Nat) : natToDecimalChars n ≠ [] := by
  by_cases hz : n = 0
  · subst hz; simp [natToDecimalChars]
  · simp [natToDecimalChars, natToDecimalAux, hz]

theorem parseComponent_natToDecimalChars (n : Nat)
    (h : n < HARDENED_INDEX_BOUNDARY) :
    parseComponent (natToDecimalChars n) = .ok n := by
  have hne : ¬ (natToDecimalChars n = [] ∨
      ¬ ((natToDecimalChars n).all Char.isDigit)) := by
    push_neg
    refine ⟨natToDecimalChars_ne_nil n, ?_⟩
    rw [List.all_eq_true]
    intro c hc
    exact (natToDecimalChars_mem n c hc).1
  rw [parseComponent, if_neg hne, decimalValue_natToDecimalChars, if_pos h]

theorem splitSlash_ne_nil (l : List Char) : splitSlash l ≠ [] := by
  induction l with
  | nil => simp [splitSlash]
  | cons c cs ih =>
    by_cases hc : c = '/'
    · simp [splitSlash, hc]
    · simp only [splitSlash, hc, if_false]
      cases hs : splitSlash cs with
      | nil => simp
      | cons g gs => simp

theorem splitSlash_no_slash (l : List Char) (h : ∀ c ∈ l, c ≠ '/') :
    splitSlash l = [l] := by
  induction l with
  | nil => rfl
  | cons c cs ih =>
    have hc : c ≠ '/' := h c (by simp)
    have hcs := ih (fun x hx => h x (by simp [hx]))
    simp [splitSlash, hc, hcs]

theorem splitSlash_append (l1 l2 : List Char) (h : ∀ c ∈ l1, c ≠ '/') :
    splitSlash (l1 ++ '/' :: l2) = l1 :: splitSlash l2 := by
  induction l1 with
  | nil => simp [splitSlash]
  | cons c cs ih =>
    have hc : c ≠ '/' := h c (by simp)
    have hcs := ih (fun x hx => h x (by simp [hx]))
    simp [splitSlash, hc, hcs]

/-- Parsing the canonical rendering of a terminal recovers its two
components. -/
theorem parsePath_display (t : Terminal)
    (hk : t.keychain < HARDENED_INDEX_BOUNDARY)
    (hi : t.index < HARDENED_INDEX_BOUNDARY) :
    parsePath (Terminal.display t) = .ok [t.keychain, t.index] := by
  have hk' : ∀ c ∈ natToDecimalChars t.keychain, c ≠ '/' :=
    fun c hc => (natToDecimalChars_mem _ c hc).2
  have hi' : ∀ c ∈ natToDecimalChars t.index, c ≠ '/' :=
    fun c hc => (natToDecimalChars_mem _ c hc).2
  have hsplit : splitSlash ((Terminal.display t).data) =
      [[], natToDecimalChars t.keychain, natToDecimalChars t.index] := by
    show splitSlash ('/' :: (natToDecimalChars t.keychain
        ++ '/' :: natToDecimalChars t.index)) = _
    rw [show splitSlash ('/' :: (natToDecimalChars t.keychain
        ++ '/' :: natToDecimalChars t.index)) =
      [] :: splitSlash (natToDecimalChars t.keychain
        ++ '/' :: natToDecimalChars t.index) from by simp [splitSlash]]
    rw [splitSlash_append _ _ hk', splitSlash_no_slash _ hi']
  rw [parsePath, hsplit]
  simp [collectResults, Except.map, parseComponent_natToDecimalChars _ hk,
    parseComponent_natToDecimalChars _ hi]

/-- Parsing the canonical rendering of a terminal gives back the
terminal. -/
theorem from_str_display (t : Terminal)
    (hk : t.keychain < HARDENED_INDEX_BOUNDARY)
    (hi : t.index < HARDENED_INDEX_BOUNDARY) :
    Terminal.from_str (Terminal.display t) = .ok t := by
  rw [Terminal.from_str, parsePath_display t hk hi]

/-- The derived `Ord` of `Terminal` (`derive.rs` line 34): lexicographic
comparison of `keychain`, then `index`, in field order. -/
def Terminal.cmp (a b : Terminal) : Ordering :=
  match compare a.keychain b.keychain with
  | .eq => compare a.index b.index
  | o => o

/-- `DerivedAddr` (`derive.rs` lines 70–74): an address paired with the
terminal that produced it.  The address type is opaque to the derivation
core (`Address` lives in `address.rs`, outside the provided sources). -/
structure DerivedAddr (A : Type) : Type where
  addr : A
  terminal : Terminal
deriving DecidableEq

/-- `Ord for DerivedAddr` (`derive.rs` lines 76–78): comparison delegates
to the `terminal` field only. -/
def DerivedAddr.cmp {A : Type} (a b : DerivedAddr A) : Ordering :=
  Terminal.cmp a.terminal b.terminal

/-- `DerivedAddr::new` (`derive.rs` lines 84–91). -/
def DerivedAddr.new {A : Type} (addr : A) (keychain index : Nat) :
    DerivedAddr A :=
  ⟨addr, ⟨keychain, index⟩⟩

/-- The `Derive::derive` trait method (`derive.rs` line 94): a capability
is a function from the two indices to the output value. -/
def Derive.derive {D : Type} (f : Nat → Nat → D) (keychain index : Nat) :
    D :=
  f keychain index

/-- `XpubDescriptor` as seen by the derivation core: it owns an extended
public key (`xpub.rs` is outside the provided sources, so the key itself is
opaque). -/
structure XpubDescriptor (X : Type) : Type where
  xpub : X

/-- `Derive<ComprPubkey> for XpubDescriptor` (`derive.rs` lines 148–156):
derive the child key at the two-level path `[keychain, index]` and project
it to its compressed form.  `derive_pub` and `to_compr_pub` model the
external BIP32/key capabilities the spec consumes as total deterministic
functions. -/
def XpubDescriptor.derive_compr {X C : Type} (derive_pub : X → List Nat → X)
    (to_compr_pub : X → C) (self : XpubDescriptor X)
    (keychain index : Nat) : C :=
  to_compr_pub (derive_pub self.xpub [keychain, index])

/-- `Derive<InternalPk> for XpubDescriptor` (`derive.rs` lines 158–166):
as above but projecting to the x-only form. -/
def XpubDescriptor.derive_xonly {X P : Type} (derive_pub : X → List Nat → X)
    (to_xonly_pub : X → P) (self : XpubDescriptor X)
    (keychain index : Nat) : P :=
  to_xonly_pub (derive_pub self.xpub [keychain, index])

theorem exists_of_all_ok {E A : Type} (l : List (Except E A))
    (h : ∀ x ∈ l, ∃ a, x = Except.ok a) :
    ∃ as : List A, l = as.map Except.ok := by
  induction l with
  | nil => exact ⟨[], rfl⟩
  | cons x rest ih =>
    obtain ⟨a, ha⟩ := h x (by simp)
    obtain ⟨as, has⟩ := ih (fun y hy => h y (by simp [hy]))
    exact ⟨a :: as, by simp [ha, has]⟩

/-- A concrete deriver used to exercise the theorems: it returns the pair
of indices it is asked for. -/
def pairFn : Nat → Nat → Nat × Nat := fun keychain index => (keychain, index)

/-- A concrete address encoder that always succeeds. -/
def okEnc : Nat × Nat → Unit → Except Unit (Nat × Nat) :=
  fun spk _ => .ok spk

/-- A concrete address encoder that fails on address index 6. -/
def failEnc : Nat × Nat → Unit → Except Unit (Nat × Nat) :=
  fun spk _ => if spk.2 = 6 then .error () else .ok spk

/-- C1: for every deriver `f`, keychain, starting index `from_`, and count
`n ≥ 1` such that `from_ + n - 1` is still a valid unhardened index,
`derive_batch` returns exactly `n` outputs, the `i`-th being the derivation
at index `from_ + i`, so the batch covers `from_, …, from_ + n - 1` in
increasing order. -/
theorem claim_C1_derive_batch_consecutive {D : Type} (f : Nat → Nat → D)
    (keychain from_ n : Nat) (hn : 1 ≤ n)
    (hv : from_ + n - 1 < HARDENED_INDEX_BOUNDARY) :
    (derive_batch f keychain from_ n).length = n ∧
    derive_batch f keychain from_ n =
      (List.range n).map (fun i => f keychain (from_ + i)) := by
  have hfrom : from_ < HARDENED_INDEX_BOUNDARY := by omega
  have hL : min (max n 1) (HARDENED_INDEX_BOUNDARY - from_) = n := by omega
  rw [derive_batch_spec f keychain from_ n hfrom, hL]
  exact ⟨by simp, rfl⟩

theorem claim_C1_witness :
    (derive_batch pairFn 0 5 3).length = 3 ∧
    derive_batch pairFn 0 5 3 =
      (List.range 3).map (fun i => pairFn 0 (5 + i)) :=
  claim_C1_derive_batch_consecutive pairFn 0 5 3 (by decide) (by decide)

/-- C2: for every deriver, keychain and starting index, `derive_batch` with
`max_count = 0` still returns exactly one element — the derivation at the
starting index — because the loop derives before checking the count. -/
theorem claim_C2_max_count_zero {D : Type} (f : Nat → Nat → D)
    (keychain from_ : Nat) :
    derive_batch f keychain from_ 0 = [f keychain from_] := by
  rw [derive_batch, derive_batch_go]
  split <;> simp

/-- C3: for every deriver and keychain, a batch starting at the maximum
unhardened index `2^31 - 1` contains exactly one element for every
`max_count ≥ 1`: the checked increment signals no successor and the loop
stops without wrapping. -/
theorem claim_C3_at_max_index {D : Type} (f : Nat → Nat → D)
    (keychain max_count : Nat) (h : 1 ≤ max_count) :
    derive_batch f keychain (HARDENED_INDEX_BOUNDARY - 1) max_count =
      [f keychain (HARDENED_INDEX_BOUNDARY - 1)] := by
  rw [derive_batch, derive_batch_go, checked_inc_eq_none (by omega)]

theorem claim_C3_witness :
    derive_batch pairFn 0 (HARDENED_INDEX_BOUNDARY - 1) 7 =
      [pairFn 0 (HARDENED_INDEX_BOUNDARY - 1)] :=
  claim_C3_at_max_index pairFn 0 7 (by decide)

/-- C10: for every deriver, keychain, valid starting index and `max_count`,
the batch is never empty and has at most `max max_count 1` elements; since
`max_count` is a `u8` (at most `255`), no batch exceeds `255` elements, so
the internal `u8` item counter — whose final value is the batch length —
never overflows. -/
theorem claim_C10_batch_bounds {D : Type} (f : Nat → Nat → D)
    (keychain from_ max_count : Nat) (h : from_ < HARDENED_INDEX_BOUNDARY) :
    1 ≤ (derive_batch f keychain from_ max_count).length ∧
    (derive_batch f keychain from_ max_count).length ≤ max max_count 1 ∧
    (max_count ≤ 255 →
      (derive_batch f keychain from_ max_count).length ≤ 255) := by
  rw [derive_batch_spec f keychain from_ max_count h]
  simp only [List.length_map, List.length_range]
  omega

theorem claim_C10_witness :
    1 ≤ (derive_batch pairFn 0 5 0).length ∧
    (derive_batch pairFn 0 5 0).length ≤ max 0 1 ∧
    (0 ≤ 255 → (derive_batch pairFn 0 5 0).length ≤ 255) :=
  claim_C10_batch_bounds pairFn 0 5 0 (by decide)

theorem derive_address_batch_eq {Spk Net E A : Type}
    (withAddr : Spk → Net → Except E A) (f : Nat → Nat → Spk) (network : Net)
    (keychain from_ max_count : Nat) (h : from_ < HARDENED_INDEX_BOUNDARY) :
    derive_address_batch withAddr f network keychain from_ max_count =
      collectResults
        ((List.range
          (min (max max_count 1) (HARDENED_INDEX_BOUNDARY - from_))).map
          (fun j => derive_address withAddr f network keychain (from_ + j))) := by
  rw [derive_address_batch, derive_batch_spec f keychain from_ max_count h,
    List.map_map]
  rfl

/-- C4: `derive_address_batch` succeeds exactly when `derive_address`
succeeds at every index covered by the batch, and on success its value is,
element for element, the mapping of `derive_address` over those indices. -/
theorem claim_C4_address_batch_refines {Spk Net E A : Type}
    (withAddr : Spk → Net → Except E A) (f : Nat → Nat → Spk) (network : Net)
    (keychain from_ max_count : Nat) (h : from_ < HARDENED_INDEX_BOUNDARY) :
    ((∃ as, derive_address_batch withAddr f network keychain from_ max_count
        = .ok as) ↔
      (∀ j < min (max max_count 1) (HARDENED_INDEX_BOUNDARY - from_),
        ∃ a, derive_address withAddr f network keychain (from_ + j)
          = .ok a)) ∧
    (∀ as, derive_address_batch withAddr f network keychain from_ max_count
        = .ok as →
      (List.range
        (min (max max_count 1) (HARDENED_INDEX_BOUNDARY - from_))).map
          (fun j => derive_address withAddr f network keychain (from_ + j))
        = as.map Except.ok) := by
  rw [derive_address_batch_eq withAddr f network keychain from_ max_count h]
  constructor
  · constructor
    · rintro ⟨as, has⟩ j hj
      have hmap := (collectResults_eq_ok_iff _ as).mp has
      have hmem : derive_address withAddr f network keychain (from_ + j) ∈
          as.map Except.ok := by
        rw [← hmap]
        exact List.mem_map_of_mem _ (List.mem_range.mpr hj)
      obtain ⟨a, _, ha⟩ := List.mem_map.mp hmem
      exact ⟨a, ha.symm⟩
    · intro hall
      have hall' : ∀ x ∈ (List.range
            (min (max max_count 1) (HARDENED_INDEX_BOUNDARY - from_))).map
            (fun j => derive_address withAddr f network keychain (from_ + j)),
          ∃ a, x = Except.ok a := by
        intro x hx
        obtain ⟨j, hj, hxj⟩ := List.mem_map.mp hx
        obtain ⟨a, ha⟩ := hall j (List.mem_range.mp hj)
        exact ⟨a, by rw [← hxj, ha]⟩
      obtain ⟨as, has⟩ := exists_of_all_ok _ hall'
      exact ⟨as, (collectResults_eq_ok_iff _ as).mpr has⟩
  · intro as has
    exact (collectResults_eq_ok_iff _ as).mp has

theorem claim_C4_witness :
    ((∃ as, derive_address_batch okEnc pairFn () 0 5 2 = .ok as) ↔
      (∀ j < min (max 2 1) (HARDENED_INDEX_BOUNDARY - 5),
        ∃ a, derive_address okEnc pairFn () 0 (5 + j) = .ok a)) ∧
    (∀ as, derive_address_batch okEnc pairFn () 0 5 2 = .ok as →
      (List.range (min (max 2 1) (HARDENED_INDEX_BOUNDARY - 5))).map
          (fun j => derive_address okEnc pairFn () 0 (5 + j))
        = as.map Except.ok) :=
  claim_C4_address_batch_refines okEnc pairFn () 0 5 2 (by decide)

/-- C5: `derive_address_batch` is atomic — it either returns a complete
list in which every derived script-pubkey encoded successfully, or it
returns the first encoding error and no list at all (an `error` result
carries no partial addresses by construction). -/
theorem claim_C5_address_batch_atomic {Spk Net E A : Type}
    (withAddr : Spk → Net → Except E A) (f : Nat → Nat → Spk) (network : Net)
    (keychain from_ max_count : Nat) (h : from_ < HARDENED_INDEX_BOUNDARY) :
    (∃ as, derive_address_batch withAddr f network keychain from_ max_count
        = .ok as ∧
      (List.range
        (min (max max_count 1) (HARDENED_INDEX_BOUNDARY - from_))).map
          (fun j => derive_address withAddr f network keychain (from_ + j))
        = as.map Except.ok) ∨
    (∃ j, j < min (max max_count 1) (HARDENED_INDEX_BOUNDARY - from_) ∧
      ∃ e, derive_address withAddr f network keychain (from_ + j)
          = .error e ∧
        (∀ i < j, ∃ a, derive_address withAddr f network keychain (from_ + i)
          = .ok a) ∧
        derive_address_batch withAddr f network keychain from_ max_count
          = .error e) := by
  rw [derive_address_batch_eq withAddr f network keychain from_ max_count h]
  have hget : ∀ (jj : Nat) (x : Except E A),
      ((List.range
          (min (max max_count 1) (HARDENED_INDEX_BOUNDARY - from_))).map
        (fun j => derive_address withAddr f network keychain (from_ + j)))[jj]?
        = some x ↔
      (jj < min (max max_count 1) (HARDENED_INDEX_BOUNDARY - from_) ∧
        derive_address withAddr f network keychain (from_ + jj) = x) := by
    intro jj x
    rw [List.getElem?_map]
    by_cases hj : jj < min (max max_count 1) (HARDENED_INDEX_BOUNDARY - from_)
    · rw [List.getElem?_range hj]
      simp [hj]
    · rw [List.getElem?_eq_none (by
        simp only [List.length_map, List.length_range]
        omega)]
      simp [hj]
  rcases collectResults_cases
      ((List.range
        (min (max max_count 1) (HARDENED_INDEX_BOUNDARY - from_))).map
        (fun j => derive_address withAddr f network keychain (from_ + j)))
    with ⟨as, hok, hmap⟩ | ⟨j, e, hj, hpre, herr⟩
  · exact Or.inl ⟨as, hok, hmap⟩
  · obtain ⟨hjL, hde⟩ := (hget j _).mp hj
    refine Or.inr ⟨j, hjL, e, hde, ?_, herr⟩
    intro i hi
    obtain ⟨a, ha⟩ := hpre i hi
    exact ⟨a, ((hget i _).mp ha).2⟩

theorem claim_C5_witness :
    (∃ as, derive_address_batch failEnc pairFn () 0 5 3 = .ok as ∧
      (List.range (min (max 3 1) (HARDENED_INDEX_BOUNDARY - 5))).map
          (fun j => derive_address failEnc pairFn () 0 (5 + j))
        = as.map Except.ok) ∨
    (∃ j, j < min (max 3 1) (HARDENED_INDEX_BOUNDARY - 5) ∧
      ∃ e, derive_address failEnc pairFn () 0 (5 + j) = .error e ∧
        (∀ i < j, ∃ a, derive_address failEnc pairFn () 0 (5 + i) = .ok a) ∧
        derive_address_batch failEnc pairFn () 0 5 3 = .error e) :=
  claim_C5_address_batch_atomic failEnc pairFn () 0 5 3 (by decide)

/-- C6: `Terminal` parsing succeeds exactly on strings that parse as an
unhardened derivation path with exactly two components, returning the
terminal made of those components; a parseable path of any other arity
fails with the wrong-component-count error carrying the original string;
a path-syntax failure is propagated wrapped and otherwise unchanged. -/
theorem claim_C6_terminal_parse_cases (s : String) :
    (∀ k i : Nat, parsePath s = .ok [k, i] →
      Terminal.from_str s = .ok ⟨k, i⟩) ∧
    (∀ comps, parsePath s = .ok comps → comps.length ≠ 2 →
      Terminal.from_str s = .error (.InvalidComponents s)) ∧
    (∀ e, parsePath s = .error e →
      Terminal.from_str s = .error (.DerivationPath e)) ∧
    ((∃ t, Terminal.from_str s = .ok t) ↔
      (∃ k i : Nat, parsePath s = .ok [k, i])) := by
  cases hp : parsePath s with
  | error e =>
    refine ⟨?_, ?_, ?_, ?_⟩
    · intro k i hcontra
      exact absurd hcontra (by simp)
    · intro comps hcontra
      exact absurd hcontra (by simp)
    · intro e' he'
      have he : e' = e := by
        injection he' with h
        exact h.symm
      subst he
      rw [Terminal.from_str, hp]
    · constructor
      · rintro ⟨t, ht⟩
        rw [Terminal.from_str, hp] at ht
        exact absurd ht (by simp)
      · rintro ⟨k, i, hcontra⟩
        exact absurd hcontra (by simp)
  | ok comps =>
    have hok : ∀ k i : Nat, comps = [k, i] →
        Terminal.from_str s = .ok ⟨k, i⟩ := by
      intro k i hki
      rw [Terminal.from_str, hp, hki]
    have hbad : comps.length ≠ 2 →
        Terminal.from_str s = .error (.InvalidComponents s) := by
      intro hlen
      rw [Terminal.from_str, hp]
      match comps, hlen with
      | [], _ => rfl
      | [k], _ => rfl
      | [k, i], hlen => exact absurd rfl hlen
      | k :: i :: x :: rest, _ => rfl
    refine ⟨?_, ?_, ?_, ?_⟩
    · intro k i hki
      have hc : comps = [k, i] := by
        cases hki
        rfl
      exact hok _ _ hc
    · intro comps' hcomps'
      have hc : comps' = comps := by
        cases hcomps'
        rfl
      subst hc
      exact hbad
    · intro e hcontra
      exact absurd hcontra (by simp)
    · constructor
      · rintro ⟨t, ht⟩
        by_cases hlen : comps.length = 2
        · match comps, hlen with
          | [k, i], _ => exact ⟨k, i, rfl⟩
        · rw [hbad hlen] at ht
          exact absurd ht (by simp)
      · rintro ⟨k, i, hki⟩
        have hc : comps = [k, i] := by
          cases hki
          rfl
        exact ⟨⟨k, i⟩, hok _ _ hc⟩

theorem claim_C6_witness : Terminal.from_str ("/0/1") = .ok ⟨0, 1⟩ :=
  (claim_C6_terminal_parse_cases ("/0/1")).1 0 1 rfl

/-- C7 counterexample: the string `/01/2` is a valid two-component
unhardened path string — it parses to the terminal `(1, 2)` — yet
formatting that terminal yields the canonical `/1/2`, not the original
string, so `format(parse(s)) = s` fails for it. -/
theorem claim_C7_counterexample :
    Terminal.from_str ("/01/2") = .ok ⟨1, 2⟩ ∧
    Terminal.display ⟨1, 2⟩ ≠ "/01/2" :=
  ⟨rfl, by decide⟩

/-- C7 (amended): the round-trip holds for canonical strings: whenever `s`
is the canonical rendering `/keychain/index` of a terminal with in-range
components (components written in decimal without leading zeros), parsing
`s` succeeds and re-formatting the parsed terminal yields `s` again. -/
theorem claim_C7_roundtrip_canonical (s : String) (t : Terminal)
    (hs : s = Terminal.display t)
    (hk : t.keychain < HARDENED_INDEX_BOUNDARY)
    (hi : t.index < HARDENED_INDEX_BOUNDARY) :
    ∃ t', Terminal.from_str s = .ok t' ∧ Terminal.display t' = s :=
  ⟨t, by rw [hs, from_str_display t hk hi], hs.symm⟩

theorem claim_C7_witness :
    ∃ t', Terminal.from_str ("/1/2") = .ok t' ∧
      Terminal.display t' = "/1/2" :=
  claim_C7_roundtrip_canonical ("/1/2") ⟨1, 2⟩ (by decide) (by decide)
    (by decide)

/-- C8: `DerivedAddr` ordering is decided solely by the terminal — it is
below another exactly when its terminal is lexicographically smaller by
keychain then index, regardless of address content; two values with equal
terminals compare as ordering-equal even when their addresses differ, in
which case they are still not content-equal. -/
theorem claim_C8_ordering_by_terminal {A : Type} (d1 d2 : DerivedAddr A) :
    (DerivedAddr.cmp d1 d2 = .lt ↔
      (d1.terminal.keychain < d2.terminal.keychain ∨
        (d1.terminal.keychain = d2.terminal.keychain ∧
          d1.terminal.index < d2.terminal.index))) ∧
    (d1.terminal = d2.terminal → DerivedAddr.cmp d1 d2 = .eq) ∧
    (d1.terminal = d2.terminal → d1.addr ≠ d2.addr → d1 ≠ d2) := by
  refine ⟨?_, ?_, ?_⟩
  · rw [DerivedAddr.cmp, Terminal.cmp]
    cases hcmp : compare d1.terminal.keychain d2.terminal.keychain with
    | lt =>
      have hk := Nat.compare_eq_lt.mp hcmp
      simp [hk]
    | eq =>
      have hk := Nat.compare_eq_eq.mp hcmp
      simp [hk, Nat.compare_eq_lt]
    | gt =>
      have hk := Nat.compare_eq_gt.mp hcmp
      constructor
      · intro hcontra
        exact Ordering.noConfusion hcontra
      · intro hcontra
        rcases hcontra with hlt | ⟨heq, _⟩
        · exact absurd hlt (by omega)
        · exact absurd heq (by omega)
  · intro ht
    have h1 : compare d2.terminal.keychain d2.terminal.keychain =
        Ordering.eq := Nat.compare_eq_eq.mpr rfl
    have h2 : compare d2.terminal.index d2.terminal.index =
        Ordering.eq := Nat.compare_eq_eq.mpr rfl
    rw [DerivedAddr.cmp, Terminal.cmp, ht, h1, h2]
  · intro _ hne heq
    exact hne (congrArg DerivedAddr.addr heq)

theorem claim_C8_witness :
    DerivedAddr.cmp (⟨true, ⟨1, 2⟩⟩ : DerivedAddr Bool) ⟨false, ⟨1, 2⟩⟩
        = .eq ∧
    (⟨true, ⟨1, 2⟩⟩ : DerivedAddr Bool) ≠ ⟨false, ⟨1, 2⟩⟩ :=
  ⟨(claim_C8_ordering_by_terminal ⟨true, ⟨1, 2⟩⟩ ⟨false, ⟨1, 2⟩⟩).2.1 rfl,
    (claim_C8_ordering_by_terminal ⟨true, ⟨1, 2⟩⟩ ⟨false, ⟨1, 2⟩⟩).2.2 rfl
      (by decide)⟩

/-- C9: derivation is deterministic — with the external child-derivation
and projection capabilities modelled as functions (the spec consumes them
as total, deterministic operations), two calls with the same deriver and
the same `(keychain, index)` pair give the same output, for the
compressed-key and x-only specializations of `XpubDescriptor` and for any
script-pubkey derive capability. -/
theorem claim_C9_derive_deterministic {X C P S : Type}
    (derive_pub : X → List Nat → X) (to_compr_pub : X → C)
    (to_xonly_pub : X → P) (spk : Nat → Nat → S)
    (d1 d2 : XpubDescriptor X) (k1 k2 i1 i2 : Nat)
    (hd : d1 = d2) (hk : k1 = k2) (hi : i1 = i2) :
    XpubDescriptor.derive_compr derive_pub to_compr_pub d1 k1 i1 =
      XpubDescriptor.derive_compr derive_pub to_compr_pub d2 k2 i2 ∧
    XpubDescriptor.derive_xonly derive_pub to_xonly_pub d1 k1 i1 =
      XpubDescriptor.derive_xonly derive_pub to_xonly_pub d2 k2 i2 ∧
    Derive.derive spk k1 i1 = Derive.derive spk k2 i2 := by
  subst hd hk hi
  exact ⟨rfl, rfl, rfl⟩

theorem claim_C9_witness :
    XpubDescriptor.derive_compr (fun x p => x + p.length) (fun x => x + 1)
        ⟨7⟩ 1 2 =
      XpubDescriptor.derive_compr (fun x p => x + p.length) (fun x => x + 1)
        ⟨7⟩ 1 2 ∧
    XpubDescriptor.derive_xonly (fun x p => x + p.length) (fun x => x * 2)
        ⟨7⟩ 1 2 =
      XpubDescriptor.derive_xonly (fun x p => x + p.length) (fun x => x * 2)
        ⟨7⟩ 1 2 ∧
    Derive.derive pairFn 1 2 = Derive.derive pairFn 1 2 :=
  claim_C9_derive_deterministic (fun x p => x + p.length) (fun x => x + 1)
    (fun x => x * 2) pairFn ⟨7⟩ ⟨7⟩ 1 1 2 2 rfl rfl rfl

end BpStd
